import Mathlib

/-!
Shallow embedding of the vendor-data consolidation tool
(src/field_mapping_with_manual_review.py and src/data_consolidation.py).

A pandas cell is modelled as `Option String` (`none` = NaN/absent; all raw
values are read as text by the tool, `dtype=str`).  A DataFrame is a column
list plus a list of rows.  pandas semantics that matter here and are
modelled faithfully:
- `rename` maps each column label through the mapping, unknown labels kept;
- `dict(zip(ks, vs))` lets the *last* entry win on duplicate keys;
- `drop_duplicates` / `duplicated` treat NaN values as equal to each other;
- `concat` takes the union of the column sets in order of first appearance
  and fills missing cells with NaN; rows are appended in order;
- `sort_values` sorts ascending with NaN placed last;
- `fillna(method='ffill')` makes each NaN cell inherit the nearest
  non-NaN value above it in its column.
-/

/-- A single cell of a DataFrame: `none` models pandas NaN/absent. -/
abbrev Cell := Option String

/-- A pandas DataFrame: ordered column labels and rows of cells. -/
structure DF where
  columns : List String
  rows : List (List Cell)
deriving Repr, DecidableEq

/-- One row of the mapping table
(columns Source, Source Field, Standard Field, Sample Data). -/
structure MappingEntry where
  source : String
  sourceField : String
  standardField : String
  sampleData : Cell
deriving Repr, DecidableEq

/-- The mapping table: the ordered sequence of its rows. -/
abbrev MappingTable := List MappingEntry

/-! ### String comparison (codepoint-wise, as pandas compares strings) -/

/-- Lexicographic strict order on char lists by codepoint. -/
def charListLt : List Char → List Char → Bool
  | _, [] => false
  | [], _ :: _ => true
  | a :: as, b :: bs =>
    if a.toNat < b.toNat then true
    else if b.toNat < a.toNat then false
    else charListLt as bs

/-- Comparison used by `sort_values('vendor_id')`: ascending, NaN last. -/
def cellLe : Cell → Cell → Bool
  | none, none => true
  | none, some _ => false
  | some _, none => true
  | some x, some y => !(charListLt y.data x.data)

/-! ### src/field_mapping_with_manual_review.py -/

/-- One step of forward fill: each NaN cell of row `r` inherits the cell of
the previous (already filled) row `prev`. -/
def ffillStep (prev r : List Cell) : List Cell :=
  List.zipWith (fun p c => if c.isSome then c else p) prev r

/-- Forward fill of all rows after the first, given the previous filled row. -/
def ffillAux (prev : List Cell) : List (List Cell) → List (List Cell)
  | [] => []
  | r :: rs => ffillStep prev r :: ffillAux (ffillStep prev r) rs

/-- `df.fillna(method='ffill')` (src/field_mapping_with_manual_review.py line 16):
column-wise forward fill; the first row is unchanged. -/
def ffill : List (List Cell) → List (List Cell)
  | [] => []
  | r :: rs => r :: ffillAux r rs

/-- Keep-first removal of rows whose key was already seen
(`drop_duplicates`, with pandas semantics where NaN keys compare equal). -/
def dropDuplicatesBy {α β : Type} [DecidableEq β] (key : α → β) : List α → List β → List α
  | [], _ => []
  | x :: xs, seen =>
    if key x ∈ seen then dropDuplicatesBy key xs seen
    else x :: dropDuplicatesBy key xs (key x :: seen)

/-- `clean_csv` (src/field_mapping_with_manual_review.py lines 13-18):
drop fully-empty rows, forward-fill, drop exact duplicate rows. -/
def clean_csv (rows : List (List Cell)) : List (List Cell) :=
  dropDuplicatesBy (fun r => r) (ffill (rows.filter (fun r => r.any (fun c => c.isSome)))) []

/-- Entries of the mapping table whose Source equals the given source
(`mapping_table[mapping_table['Source'] == source_name]`). -/
def mappingForSource (mt : MappingTable) (s : String) : List MappingEntry :=
  mt.filter (fun e => e.source == s)

/-- `apply_mapping`'s per-source rename loop
(src/field_mapping_with_manual_review.py lines 64-68): for each mapping row
in order, if its Standard Field is not "Unmapped", rename that single
source field. -/
def applyMappingRename (df : DF) (source : String) (mt : MappingTable) : DF :=
  (mappingForSource mt source).foldl
    (fun acc e =>
      if e.standardField != "Unmapped" then
        { acc with columns := acc.columns.map (fun c => if c == e.sourceField then e.standardField else c) }
      else acc)
    df

/-! ### src/data_consolidation.py -/

/-- `field_map = dict(zip(mapping['Source Field'], mapping['Standard Field']))`
(src/data_consolidation.py line 23), as a lookup: the last entry for a given
Source Field wins, as in a Python dict. -/
def fieldMapLookup (entries : List MappingEntry) (c : String) : Option String :=
  (entries.reverse.find? (fun e => e.sourceField == c)).map (fun e => e.standardField)

/-- The column-label mapper of `data.rename(columns=field_map)`:
labels found in the dict are replaced, others kept. -/
def applyMap (entries : List MappingEntry) (c : String) : String :=
  (fieldMapLookup entries c).getD c

/-- `standardise_data` (src/data_consolidation.py lines 15-40).  The prints
are diagnostics to an external sink; the data effect is the rename.  Note
the field map is built from *all* entries of the source, including those
whose Standard Field is "Unmapped". -/
def standardise_data (df : DF) (sourceName : String) (mt : MappingTable) : DF :=
  { df with columns := df.columns.map (applyMap (mappingForSource mt sourceName)) }

/-- The `vendor_id_mappings` emptiness test of src/data_consolidation.py
lines 26-27: true iff no entry of this source maps to "vendor_id". -/
def missingVendorIdMapping (sourceName : String) (mt : MappingTable) : Bool :=
  ((mappingForSource mt sourceName).filter
    (fun e => e.standardField == "vendor_id")).isEmpty

/-- The column list produced by `ensure_unique_columns`
(src/data_consolidation.py lines 44-45): every occurrence of a name that
occurs more than once gets its zero-based position appended. -/
def suffixDuplicates (cols : List String) : List String :=
  cols.enum.map (fun p => if cols.count p.2 > 1 then p.2 ++ "_" ++ toString p.1 else p.2)

/-- `ensure_unique_columns` (src/data_consolidation.py lines 42-46):
only the column labels change, the cells are untouched. -/
def ensure_unique_columns (df : DF) : DF :=
  { df with columns := suffixDuplicates df.columns }

/-- Union of the column lists in order of first appearance, as produced on
the non-concatenation axis by `pd.concat` with the default outer join. -/
def unionColumns (dfs : List DF) : List String :=
  dfs.foldl (fun acc df => acc ++ df.columns.filter (fun c => !acc.contains c)) []

/-- Re-expression of one source row over the union column list: a column the
source lacks gets NaN. -/
def alignRow (cols : List String) (df : DF) (row : List Cell) : List Cell :=
  cols.map (fun c =>
    if c ∈ df.columns then row.getD (df.columns.indexOf c) none else none)

/-- `pd.concat(standardised_data, ignore_index=True)`
(src/data_consolidation.py line 55): union columns, all rows appended in
order, missing cells NaN. -/
def concatDFs (dfs : List DF) : DF :=
  { columns := unionColumns dfs
    rows := (dfs.map (fun df => df.rows.map (alignRow (unionColumns dfs) df))).flatten }

/-- `consolidate_data` (src/data_consolidation.py lines 48-56): standardise
each source, make its columns unique, concatenate everything. -/
def consolidate_data (dataDict : List (String × DF)) (mt : MappingTable) : DF :=
  concatDFs (dataDict.map (fun p => ensure_unique_columns (standardise_data p.2 p.1 mt)))

/-- Index of the first output row of source number `s` inside the
concatenated dataset. -/
def rowOffset (dfs : List DF) (s : Nat) : Nat :=
  ((dfs.take s).map (fun df => df.rows.length)).sum

/-- `remove_special_characters` (src/data_consolidation.py lines 80-83):
keep only alphanumeric characters; NaN passes through unchanged. -/
def remove_special_characters (v : Cell) : Cell :=
  match v with
  | some s => some (String.mk (s.data.filter (fun c => c.isAlphanum)))
  | none => none

/-- `remove_whitespace` (src/data_consolidation.py lines 85-88):
`''.join(value.split())` removes all whitespace; NaN passes through. -/
def remove_whitespace (v : Cell) : Cell :=
  match v with
  | some s => some (String.mk (s.data.filter (fun c => !c.isWhitespace)))
  | none => none

/-- `df[column] = df[column].apply(cleaning_function)` for one column, when
present (src/data_consolidation.py lines 69-71). -/
def applyRuleToColumn (df : DF) (col : String) (rule : Cell → Cell) : DF :=
  if col ∈ df.columns then
    let k := df.columns.indexOf col
    { df with rows := df.rows.map (fun r => r.set k (rule (r.getD k none))) }
  else df

/-- `clean_columns` (src/data_consolidation.py lines 58-77): apply each rule
to its column; the vendor-id prints are diagnostics only. -/
def clean_columns (df : DF) (rules : List (String × (Cell → Cell))) : DF :=
  rules.foldl (fun acc p => applyRuleToColumn acc p.1 p.2) df

/-- The `cleaning_rules` dict of src/data_consolidation.py lines 112-115. -/
def cleaning_rules : List (String × (Cell → Cell)) :=
  [("vendor_id", remove_special_characters), ("vat_number", remove_whitespace)]

/-- The deduplication key of a row: its vendor_id cell. -/
def vkey (df : DF) (r : List Cell) : Cell :=
  r.getD (df.columns.indexOf "vendor_id") none

/-- `drop_duplicates(subset=['vendor_id'], keep='first')` guarded on the
column being present (src/data_consolidation.py lines 119-120).  As in
pandas, NaN keys compare equal to each other. -/
def dedupByVendor (df : DF) : DF :=
  if "vendor_id" ∈ df.columns then
    { df with rows := dropDuplicatesBy (fun r => vkey df r) df.rows [] }
  else df

/-- The duplicates report of src/data_consolidation.py lines 148-153: all
rows whose vendor_id occurs at least twice, sorted by vendor_id (skipped
when the column is absent; that case is modelled as the unchanged input). -/
def duplicateReport (df : DF) : DF :=
  if "vendor_id" ∈ df.columns then
    let dupRows := df.rows.filter (fun r => 2 ≤ df.rows.countP (fun q => vkey df q == vkey df r))
    { df with rows := dupRows.insertionSort (fun a b => cellLe (vkey df a) (vkey df b) = true) }
  else df

/-! ### Specification-side helpers -/

/-- The last non-NaN value of a list of cells, if any (used to state what
"nearest non-empty cell above" means). -/
def lastNonEmpty (l : List Cell) : Cell :=
  l.foldl (fun acc c => if c.isSome then c else acc) none

/-- Same, but starting from a given fallback value. -/
def lastNonEmptyFrom (d : Cell) (l : List Cell) : Cell :=
  l.foldl (fun acc c => if c.isSome then c else acc) d

/-- The rows kept by keep-first deduplication as the specification words it:
row `i` survives exactly when no earlier row has an equal key (`none` keys
compare equal, as pandas `drop_duplicates` treats NaN). -/
def keepFirstByKey {α β : Type} [DecidableEq β] (key : α → β) (d : α) (l : List α) : List α :=
  ((List.range l.length).filter
    (fun i => decide (∀ j < i, key (l.getD j d) ≠ key (l.getD i d)))).map
    (fun i => l.getD i d)

/-- The empty DataFrame, used as a `getD` default. -/
def emptyDF : DF := { columns := [], rows := [] }

/-- Numeric value of a decimal digit character. -/
def decDigit (c : Char) : Nat := c.toNat - 48

/-- Decimal value of a digit string (most significant first). -/
def decodeDigits (l : List Char) : Nat :=
  l.foldl (fun a c => 10 * a + decDigit c) 0

/-! ### Concrete datasets used by witnesses and counterexamples -/

/-- Dataset of the spec's duplicate-report example: identifiers
[V1, V2, V1, V3] with a distinguishing second column. -/
def exReportDF : DF :=
  { columns := ["vendor_id", "vendor_name"]
    rows := [[some "V1", some "a"], [some "V2", some "b"],
             [some "V1", some "c"], [some "V3", some "d"]] }

/-- Rows of the spec's forward-fill example. -/
def exFfillRows : List (List Cell) :=
  [[some "A", some "1"], [none, some "2"], [none, some "3"]]

/-- A dataset with one column mapped to "Unmapped" in `exUnmappedMT`. -/
def exUnmappedDF : DF := { columns := ["foo"], rows := [[some "x"]] }

/-- A mapping table marking the only column of `exUnmappedDF` "Unmapped". -/
def exUnmappedMT : MappingTable :=
  [{ source := "S", sourceField := "foo", standardField := "Unmapped", sampleData := none }]

/-- A chained mapping table: a ↦ b and b ↦ c for source "S". -/
def exChainMT : MappingTable :=
  [{ source := "S", sourceField := "a", standardField := "b", sampleData := none },
   { source := "S", sourceField := "b", standardField := "c", sampleData := none }]

/-- A dataset with the single column "a". -/
def exChainDF : DF := { columns := ["a"], rows := [[some "1"]] }

/-- A non-chained mapping table: only a ↦ b for source "S". -/
def exPlainMT : MappingTable :=
  [{ source := "S", sourceField := "a", standardField := "b", sampleData := none }]

/-- A dataset whose two rows both have a NaN vendor_id. -/
def exNullIdDF : DF := { columns := ["vendor_id"], rows := [[none], [none]] }

/-- A dataset that already carries a vendor_id column (no mapping needed). -/
def exNativeIdDF : DF := { columns := ["vendor_id"], rows := [[some "1"]] }

/-- A dataset whose mapping table maps nothing to vendor_id. -/
def exNoIdDF : DF := { columns := ["name"], rows := [[some "x"]] }

/-- A mapping table for `exNoIdDF`: name ↦ vendor_name only. -/
def exNoIdMT : MappingTable :=
  [{ source := "S", sourceField := "name", standardField := "vendor_name", sampleData := none }]

/-- Column list where positional suffixing of the duplicated "vendor_id"
collides with the pre-existing unique column "vendor_id_0". -/
def exCollideDF : DF :=
  { columns := ["vendor_id", "vendor_id", "vendor_id_0"]
    rows := [[some "1", some "2", some "3"]] }

/-- Two small sources used to witness consolidation. -/
def exConsA : DF := { columns := ["vendor_id", "city"], rows := [[some "V1", some "Oslo"]] }

/-- Second consolidation witness source, sharing only vendor_id. -/
def exConsB : DF := { columns := ["vendor_id", "iban"], rows := [[some "V2", some "X9"]] }

/-! ### Helper lemmas -/

theorem clean_columns_shape : ∀ (rules : List (String × (Cell → Cell))) (df : DF),
    (clean_columns df rules).columns = df.columns ∧
      (clean_columns df rules).rows.length = df.rows.length := by
  intro rules
  induction rules with
  | nil => intro df; exact ⟨rfl, rfl⟩
  | cons p rs ih =>
    intro df
    have hstep : (applyRuleToColumn df p.1 p.2).columns = df.columns ∧
        (applyRuleToColumn df p.1 p.2).rows.length = df.rows.length := by
      unfold applyRuleToColumn
      split
      · exact ⟨rfl, by simp⟩
      · exact ⟨rfl, rfl⟩
    have hrec := ih (applyRuleToColumn df p.1 p.2)
    have hdef : clean_columns df (p :: rs) = clean_columns (applyRuleToColumn df p.1 p.2) rs := rfl
    rw [hdef]
    exact ⟨hrec.1.trans hstep.1, hrec.2.trans hstep.2⟩

theorem suffixDuplicates_getD (cols : List String) (i : Nat) (hi : i < cols.length) :
    (suffixDuplicates cols).getD i "" =
      (if 1 < cols.count (cols.getD i "") then cols.getD i "" ++ "_" ++ toString i
       else cols.getD i "") := by
  unfold suffixDuplicates
  have h1 : i < (cols.enum.map
      (fun p => if cols.count p.2 > 1 then p.2 ++ "_" ++ toString p.1 else p.2)).length := by
    simpa [List.enum_length] using hi
  rw [List.getD_eq_getElem _ _ h1, List.getElem_map, List.getElem_enum,
    List.getD_eq_getElem _ _ hi]

theorem dropDuplicatesBy_eq_filter {α β : Type} [DecidableEq β] (key : α → β) (d : α) :
    ∀ (l : List α) (seen : List β),
      dropDuplicatesBy key l seen =
        ((List.range l.length).filter (fun i =>
            decide (key (l.getD i d) ∉ seen ∧
              ∀ j < i, key (l.getD j d) ≠ key (l.getD i d)))).map
          (fun i => l.getD i d) := by
  intro l
  induction l with
  | nil => intro seen; simp [dropDuplicatesBy]
  | cons x xs ih =>
    intro seen
    have hsplit : ∀ (i : Nat) (P : Nat → Prop),
        ((∀ j < i + 1, P j) ↔ (P 0 ∧ ∀ j < i, P (j + 1))) := by
      intro i P
      constructor
      · intro H
        exact ⟨H 0 (Nat.succ_pos i), fun j hj => H (j + 1) (Nat.succ_lt_succ hj)⟩
      · rintro ⟨h0, hs⟩ j hj
        cases j with
        | zero => exact h0
        | succ j' => exact hs j' (Nat.lt_of_succ_lt_succ hj)
    have hstep : dropDuplicatesBy key (x :: xs) seen =
        if key x ∈ seen then dropDuplicatesBy key xs seen
        else x :: dropDuplicatesBy key xs (key x :: seen) := rfl
    rw [hstep, List.length_cons, List.range_succ_eq_map, List.filter_cons]
    simp only [decide_eq_true_eq]
    by_cases hx : key x ∈ seen
    · rw [if_pos hx, if_neg (by rintro ⟨h1, _⟩; exact h1 hx)]
      rw [List.filter_map, List.map_map, ih seen]
      have hfun : ((fun i => (x :: xs).getD i d) ∘ Nat.succ) = (fun j => xs.getD j d) :=
        funext fun j => rfl
      rw [hfun]
      congr 1
      apply List.filter_congr
      intro j _
      simp only [Function.comp_apply]
      apply decide_eq_decide.mpr
      constructor
      · rintro ⟨h1, h2⟩
        refine ⟨h1, (hsplit j
          (fun j' => key ((x :: xs).getD j' d) ≠ key ((x :: xs).getD (j + 1) d))).mpr
            ⟨?_, h2⟩⟩
        intro heq
        exact h1 (heq ▸ hx)
      · rintro ⟨h1, h2⟩
        exact ⟨h1, ((hsplit j
          (fun j' => key ((x :: xs).getD j' d) ≠ key ((x :: xs).getD (j + 1) d))).mp h2).2⟩
    · rw [if_neg hx, if_pos ⟨hx, fun j hj => absurd hj (Nat.not_lt_zero j)⟩]
      rw [List.map_cons]
      congr 1
      rw [List.filter_map, List.map_map, ih (key x :: seen)]
      have hfun : ((fun i => (x :: xs).getD i d) ∘ Nat.succ) = (fun j => xs.getD j d) :=
        funext fun j => rfl
      rw [hfun]
      congr 1
      apply List.filter_congr
      intro j _
      simp only [Function.comp_apply]
      apply decide_eq_decide.mpr
      constructor
      · rintro ⟨h1, h2⟩
        rw [List.mem_cons] at h1
        push_neg at h1
        refine ⟨h1.2, (hsplit j
          (fun j' => key ((x :: xs).getD j' d) ≠ key ((x :: xs).getD (j + 1) d))).mpr
            ⟨?_, h2⟩⟩
        intro heq
        exact h1.1 heq.symm
      · rintro ⟨h1, h2⟩
        obtain ⟨h0, hs⟩ := (hsplit j
          (fun j' => key ((x :: xs).getD j' d) ≠ key ((x :: xs).getD (j + 1) d))).mp h2
        refine ⟨?_, hs⟩
        rw [List.mem_cons]
        push_neg
        exact ⟨fun hc => h0 hc.symm, h1⟩

theorem dropDuplicatesBy_nil_seen {α β : Type} [DecidableEq β] (key : α → β) (d : α)
    (l : List α) : dropDuplicatesBy key l [] = keepFirstByKey key d l := by
  rw [dropDuplicatesBy_eq_filter key d l []]
  unfold keepFirstByKey
  congr 1
  apply List.filter_congr
  intro i _
  apply decide_eq_decide.mpr
  constructor
  · rintro ⟨_, h⟩; exact h
  · intro h; exact ⟨List.not_mem_nil _, h⟩

/-! ### Claim C1 -/

/-- C1: the claim says standardisation renames only columns whose mapping
entry has a Standard Field other than "Unmapped" and keeps "Unmapped"
columns under their original name.  `standardise_data` violates this: its
field map includes "Unmapped" entries, so the column "foo" of
`exUnmappedDF` is renamed to the literal name "Unmapped".  The repository's
other implementation of the same step, `apply_mapping`, skips "Unmapped"
entries and keeps "foo", which is what the claim and the spec describe. -/
theorem standardise_renames_unmapped_columns :
    (standardise_data exUnmappedDF "S" exUnmappedMT).columns = ["Unmapped"] ∧
      (applyMappingRename exUnmappedDF "S" exUnmappedMT).columns = ["foo"] := by
  decide

/-! ### Claim C2 -/

/-- C2 counterexample: the claim says two rows with an absent identifier are
both retained.  On `exNullIdDF` (two rows, both with NaN vendor_id) the
deduplication of src/data_consolidation.py lines 119-120 keeps only the
first row, because pandas `drop_duplicates` treats NaN keys as equal. -/
theorem dedup_collapses_null_ids :
    "vendor_id" ∈ exNullIdDF.columns ∧ exNullIdDF.rows.length = 2 ∧
      (dedupByVendor exNullIdDF).rows = [[none]] := by
  decide

/-- C2 amended: for every cleaned consolidated dataset containing the
identifier column, deduplication keeps exactly those rows whose identifier
value (with absent/NaN treated as a value equal to itself) differs from the
identifier of every earlier row — i.e. keep-first over the vendor_id key,
where rows with absent identifiers deduplicate against each other too. -/
theorem dedup_keep_first_spec (df : DF) (h : "vendor_id" ∈ df.columns) :
    (dedupByVendor df).columns = df.columns ∧
      (dedupByVendor df).rows = keepFirstByKey (fun r => vkey df r) [] df.rows := by
  unfold dedupByVendor
  rw [if_pos h]
  exact ⟨rfl, dropDuplicatesBy_nil_seen (fun r => vkey df r) [] df.rows⟩

/-- C2 witness: the amended theorem applied to the concrete dataset
`exReportDF`. -/
theorem dedup_keep_first_spec_witness :
    (dedupByVendor exReportDF).rows =
      keepFirstByKey (fun r => vkey exReportDF r) [] exReportDF.rows :=
  (dedup_keep_first_spec exReportDF (by decide)).2

/-! ### Claim C3 -/

/-- C3: column-collision disambiguation appends the zero-based positional
index to every occurrence of a name that occurs more than once (including
the first), leaves unique names untouched, preserves the number of columns
and does not touch the cells; and `[vendor_id, name, vendor_id]` becomes
`[vendor_id_0, name, vendor_id_2]`. -/
theorem ensure_unique_suffixing_spec :
    (∀ df : DF, (ensure_unique_columns df).rows = df.rows ∧
        (ensure_unique_columns df).columns.length = df.columns.length) ∧
    (∀ (cols : List String) (i : Nat), i < cols.length →
        (suffixDuplicates cols).getD i "" =
          (if 1 < cols.count (cols.getD i "") then cols.getD i "" ++ "_" ++ toString i
           else cols.getD i "")) ∧
    ensure_unique_columns { columns := ["vendor_id", "name", "vendor_id"], rows := [] } =
      { columns := ["vendor_id_0", "name", "vendor_id_2"], rows := [] } := by
  refine ⟨fun df => ⟨rfl, ?_⟩, suffixDuplicates_getD, by decide⟩
  show (suffixDuplicates df.columns).length = df.columns.length
  unfold suffixDuplicates
  simp [List.enum_length]

/-- C3 witness: the pointwise description applied at position 2 of the
spec's example column list. -/
theorem ensure_unique_suffixing_spec_witness :
    (suffixDuplicates ["vendor_id", "name", "vendor_id"]).getD 2 "" =
      (if 1 < (["vendor_id", "name", "vendor_id"] : List String).count
            ((["vendor_id", "name", "vendor_id"] : List String).getD 2 "")
        then (["vendor_id", "name", "vendor_id"] : List String).getD 2 "" ++ "_" ++ toString 2
        else (["vendor_id", "name", "vendor_id"] : List String).getD 2 "") :=
  ensure_unique_suffixing_spec.2.1 ["vendor_id", "name", "vendor_id"] 2 (by decide)

/-! ### Claim C5 -/

/-- C5 counterexample: renaming is not idempotent for all mapping tables.
With the chained table a ↦ b, b ↦ c (source "S") and a dataset whose only
column is "a", one application yields column "b" and a second application
renames it further to "c". -/
theorem standardise_not_idempotent :
    standardise_data (standardise_data exChainDF "S" exChainMT) "S" exChainMT ≠
      standardise_data exChainDF "S" exChainMT := by
  decide

/-- C5 amended: applying the Standardizer twice equals applying it once
provided the column mapping is stable on the dataset's columns, i.e. no
renamed column name is itself a Source Field that the table maps to a
different Standard Field. -/
theorem standardise_idempotent_of_stable (df : DF) (s : String) (mt : MappingTable)
    (h : ∀ c ∈ df.columns,
      applyMap (mappingForSource mt s) (applyMap (mappingForSource mt s) c) =
        applyMap (mappingForSource mt s) c) :
    standardise_data (standardise_data df s mt) s mt = standardise_data df s mt := by
  unfold standardise_data
  simp only [DF.mk.injEq, and_true]
  rw [List.map_map]
  exact List.map_congr_left (fun c hc => h c hc)

/-- C5 witness: idempotence on the concrete dataset `exChainDF` with the
non-chained table `exPlainMT`. -/
theorem standardise_idempotent_of_stable_witness :
    standardise_data (standardise_data exChainDF "S" exPlainMT) "S" exPlainMT =
      standardise_data exChainDF "S" exPlainMT :=
  standardise_idempotent_of_stable exChainDF "S" exPlainMT (by decide)

/-! ### Claim C8 -/

/-- C8: `remove_special_characters` keeps exactly the alphanumeric
characters of a cell (so "V-001 " becomes "V001"), both built-in rules map
an absent cell to the same absent value, and `clean_columns` changes
neither the column list nor the number of rows. -/
theorem cleaning_rules_behaviour :
    remove_special_characters none = none ∧
    remove_whitespace none = none ∧
    remove_special_characters (some "V-001 ") = some "V001" ∧
    (∀ s : String, remove_special_characters (some s) =
      some (String.mk (s.data.filter (fun c => c.isAlphanum)))) ∧
    (∀ s t : String, remove_special_characters (some s) = some t →
      ∀ c : Char, c ∈ t.data ↔ c ∈ s.data ∧ c.isAlphanum = true) ∧
    (∀ (df : DF) (rules : List (String × (Cell → Cell))),
      (clean_columns df rules).columns = df.columns ∧
        (clean_columns df rules).rows.length = df.rows.length) := by
  refine ⟨rfl, rfl, by decide, fun s => rfl, ?_, fun df rules => clean_columns_shape rules df⟩
  intro s t h c
  have ht : t = String.mk (s.data.filter (fun c => c.isAlphanum)) :=
    (Option.some.injEq _ _ ▸ h).symm
  subst ht
  simp [List.mem_filter]

/-- C8 witness: the characterisation applied to the spec's example value
and the character V. -/
theorem cleaning_rules_behaviour_witness :
    'V' ∈ ("V001" : String).data ↔ 'V' ∈ ("V-001 " : String).data ∧ 'V'.isAlphanum = true :=
  cleaning_rules_behaviour.2.2.2.2.1 "V-001 " "V001" (by decide) 'V'

/-! ### Decimal representation facts (for positional suffix collisions) -/

theorem toDigitsCore_zero (b n : Nat) (acc : List Char) :
    Nat.toDigitsCore b 0 n acc = acc := rfl

theorem toDigitsCore_succ (b fuel n : Nat) (acc : List Char) :
    Nat.toDigitsCore b (fuel + 1) n acc =
      if n / b = 0 then Nat.digitChar (n % b) :: acc
      else Nat.toDigitsCore b fuel (n / b) (Nat.digitChar (n % b) :: acc) := rfl

theorem toDigitsCore_acc (b : Nat) : ∀ (fuel n : Nat) (acc : List Char),
    Nat.toDigitsCore b fuel n acc = Nat.toDigitsCore b fuel n [] ++ acc := by
  intro fuel
  induction fuel with
  | zero => intro n acc; rw [toDigitsCore_zero, toDigitsCore_zero, List.nil_append]
  | succ fuel ih =>
    intro n acc
    rw [toDigitsCore_succ, toDigitsCore_succ]
    by_cases h : n / b = 0
    · rw [if_pos h, if_pos h]; rfl
    · rw [if_neg h, if_neg h]
      rw [ih (n / b) (Nat.digitChar (n % b) :: acc), ih (n / b) [Nat.digitChar (n % b)]]
      simp

theorem decode_toDigitsCore : ∀ (fuel n : Nat), n < fuel →
    decodeDigits (Nat.toDigitsCore 10 fuel n []) = n := by
  intro fuel
  induction fuel with
  | zero => intro n h; exact absurd h (Nat.not_lt_zero n)
  | succ fuel ih =>
    intro n h
    rw [toDigitsCore_succ]
    by_cases h0 : n / 10 = 0
    · rw [if_pos h0]
      have hn : n < 10 := by omega
      have hmod : n % 10 = n := Nat.mod_eq_of_lt hn
      rw [hmod]
      unfold decodeDigits
      rw [List.foldl_cons, List.foldl_nil]
      interval_cases n <;> decide
    · rw [if_neg h0]
      rw [toDigitsCore_acc]
      unfold decodeDigits
      rw [List.foldl_append, List.foldl_cons, List.foldl_nil]
      have h1 : n / 10 < fuel := by omega
      have hrec := ih (n / 10) h1
      unfold decodeDigits at hrec
      rw [hrec]
      have hd : decDigit (Nat.digitChar (n % 10)) = n % 10 := by
        have hm : n % 10 < 10 := Nat.mod_lt _ (by omega)
        generalize hg : n % 10 = m at hm ⊢
        interval_cases m <;> decide
      rw [hd]
      omega

theorem toDigitsCore_mem : ∀ (fuel n : Nat) (acc : List Char) (c : Char),
    c ∈ Nat.toDigitsCore 10 fuel n acc → c ∈ acc ∨ ∃ m, c = Nat.digitChar m := by
  intro fuel
  induction fuel with
  | zero => intro n acc c h; rw [toDigitsCore_zero] at h; exact Or.inl h
  | succ fuel ih =>
    intro n acc c h
    rw [toDigitsCore_succ] at h
    by_cases h0 : n / 10 = 0
    · rw [if_pos h0] at h
      rcases List.mem_cons.mp h with h1 | h1
      · exact Or.inr ⟨n % 10, h1⟩
      · exact Or.inl h1
    · rw [if_neg h0] at h
      rcases ih (n / 10) (Nat.digitChar (n % 10) :: acc) c h with h1 | h1
      · rcases List.mem_cons.mp h1 with h2 | h2
        · exact Or.inr ⟨n % 10, h2⟩
        · exact Or.inl h2
      · exact Or.inr h1

theorem digitChar_ne_underscore (n : Nat) : Nat.digitChar n ≠ '_' := by
  by_cases h : n < 16
  · interval_cases n <;> decide
  · unfold Nat.digitChar
    iterate 16 rw [if_neg (by omega)]
    decide

theorem toString_nat_data (n : Nat) :
    (toString n : String).data = Nat.toDigitsCore 10 (n + 1) n [] := rfl

theorem underscore_not_in_toString (n : Nat) : '_' ∉ (toString n : String).data := by
  intro h
  rw [toString_nat_data] at h
  rcases toDigitsCore_mem (n + 1) n [] '_' h with h1 | ⟨m, hm⟩
  · exact List.not_mem_nil _ h1
  · exact digitChar_ne_underscore m hm.symm

theorem toString_nat_inj {m n : Nat}
    (h : (toString m : String).data = (toString n : String).data) : m = n := by
  have hm := decode_toDigitsCore (m + 1) m (Nat.lt_succ_self m)
  have hn := decode_toDigitsCore (n + 1) n (Nat.lt_succ_self n)
  rw [toString_nat_data, toString_nat_data] at h
  rw [h] at hm
  exact hm.symm.trans hn

theorem append_cons_inj_of_not_mem {α : Type} (c : α) :
    ∀ (a b u v : List α), c ∉ u → c ∉ v → a ++ c :: u = b ++ c :: v → a = b ∧ u = v := by
  intro a
  induction a with
  | nil =>
    intro b u v hu hv h
    cases b with
    | nil =>
      simp only [List.nil_append, List.cons.injEq] at h
      exact ⟨rfl, h.2⟩
    | cons y b' =>
      simp only [List.nil_append, List.cons_append, List.cons.injEq] at h
      obtain ⟨hcy, h2⟩ := h
      exact absurd (by rw [h2]; exact List.mem_append_right _ (List.mem_cons_self _ _)) hu
  | cons x a' ih =>
    intro b u v hu hv h
    cases b with
    | nil =>
      simp only [List.cons_append, List.nil_append, List.cons.injEq] at h
      obtain ⟨hcy, h2⟩ := h
      exact absurd (show c ∈ v by rw [← h2]; exact List.mem_append_right _ (List.mem_cons_self _ _)) hv
    | cons y b' =>
      simp only [List.cons_append, List.cons.injEq] at h
      obtain ⟨hxy, h2⟩ := h
      obtain ⟨ha, huv⟩ := ih b' u v hu hv h2
      exact ⟨by rw [hxy, ha], huv⟩

theorem string_suffix_data (c : String) (k : Nat) :
    (c ++ "_" ++ toString k).data = c.data ++ '_' :: (toString k : String).data := by
  show ((c ++ "_") ++ toString k).data = _
  rw [String.data_append, String.data_append]
  simp

theorem two_le_count_of_getD_eq (l : List String) (i j : Nat) (hij : i < j) (hj : j < l.length)
    (heq : l.getD i "" = l.getD j "") : 2 ≤ l.count (l.getD i "") := by
  have hi : i < l.length := Nat.lt_trans hij hj
  have hsplit : l.take j ++ l.drop j = l := List.take_append_drop j l
  have htl : i < (l.take j).length := by rw [List.length_take]; omega
  have hmem1 : l.getD i "" ∈ l.take j := by
    have hgt : (l.take j)[i] = l[i] := List.getElem_take l
    rw [List.getD_eq_getElem l "" hi, ← hgt]
    exact List.getElem_mem _
  have hc1 : 0 < (l.take j).count (l.getD i "") := List.count_pos_iff.mpr hmem1
  have hc2 : 0 < (l.drop j).count (l.getD i "") := by
    rw [List.drop_eq_getElem_cons hj, heq, List.getD_eq_getElem l "" hj, List.count_cons_self]
    omega
  have hca := List.count_append (l.getD i "") (l.take j) (l.drop j)
  rw [hsplit] at hca
  omega

theorem suffix_inj_aux (cols : List String)
    (h : ∀ u ∈ cols, cols.count u = 1 → ∀ i, i < cols.length →
        1 < cols.count (cols.getD i "") → u ≠ cols.getD i "" ++ "_" ++ toString i)
    (i j : Nat) (hi : i < cols.length) (hj : j < cols.length) (hne : i ≠ j)
    (heq : (suffixDuplicates cols).getD i "" = (suffixDuplicates cols).getD j "") : False := by
  rw [suffixDuplicates_getD cols i hi, suffixDuplicates_getD cols j hj] at heq
  have hmemi : cols.getD i "" ∈ cols := by
    rw [List.getD_eq_getElem _ _ hi]; exact List.getElem_mem _
  have hmemj : cols.getD j "" ∈ cols := by
    rw [List.getD_eq_getElem _ _ hj]; exact List.getElem_mem _
  by_cases hci : 1 < cols.count (cols.getD i "") <;>
    by_cases hcj : 1 < cols.count (cols.getD j "")
  · rw [if_pos hci, if_pos hcj] at heq
    have hd := congrArg String.data heq
    rw [string_suffix_data, string_suffix_data] at hd
    obtain ⟨h1, h2⟩ := append_cons_inj_of_not_mem '_' _ _ _ _
      (underscore_not_in_toString i) (underscore_not_in_toString j) hd
    exact hne (toString_nat_inj h2)
  · rw [if_pos hci, if_neg hcj] at heq
    have hcj1 : cols.count (cols.getD j "") = 1 := by
      have := List.count_pos_iff.mpr hmemj
      omega
    exact h (cols.getD j "") hmemj hcj1 i hi hci heq.symm
  · rw [if_neg hci, if_pos hcj] at heq
    have hci1 : cols.count (cols.getD i "") = 1 := by
      have := List.count_pos_iff.mpr hmemi
      omega
    exact h (cols.getD i "") hmemi hci1 j hj hcj heq
  · rw [if_neg hci, if_neg hcj] at heq
    rcases Nat.lt_or_ge i j with hij | hij
    · have h2 := two_le_count_of_getD_eq cols i j hij hj heq
      omega
    · have hji : j < i := by omega
      have h2 := two_le_count_of_getD_eq cols j i hji hi heq.symm
      omega

/-! ### Claim C10 -/

/-- C10 counterexample: `ensure_unique_columns` does not always return
pairwise-distinct column names.  On columns
`[vendor_id, vendor_id, vendor_id_0]` the duplicated name "vendor_id" is
suffixed at positions 0 and 1, and the suffixed "vendor_id_0" collides with
the pre-existing uniquely named column "vendor_id_0". -/
theorem ensure_unique_collision :
    (ensure_unique_columns exCollideDF).columns =
        ["vendor_id_0", "vendor_id_1", "vendor_id_0"] ∧
      ¬(ensure_unique_columns exCollideDF).columns.Nodup := by
  decide

/-- C10 amended: `ensure_unique_columns` preserves the number and order of
columns and all cell values, and returns pairwise-distinct column names
provided no uniquely named column equals a suffixed form
`name ++ "_" ++ position` of a colliding name at that position (the case
the counterexample exhibits is excluded; it is the only failure mode). -/
theorem ensure_unique_nodup_of_no_clash (df : DF)
    (h : ∀ u ∈ df.columns, df.columns.count u = 1 →
      ∀ i, i < df.columns.length → 1 < df.columns.count (df.columns.getD i "") →
        u ≠ df.columns.getD i "" ++ "_" ++ toString i) :
    (ensure_unique_columns df).columns.Nodup ∧
      (ensure_unique_columns df).rows = df.rows ∧
      (ensure_unique_columns df).columns.length = df.columns.length := by
  have hlen : (suffixDuplicates df.columns).length = df.columns.length := by
    unfold suffixDuplicates
    simp [List.enum_length]
  refine ⟨?_, rfl, hlen⟩
  rw [List.nodup_iff_injective_get]
  intro a b hab
  apply Fin.ext
  by_contra hne
  have h1 : a.1 < (suffixDuplicates df.columns).length := a.2
  have h2 : b.1 < (suffixDuplicates df.columns).length := b.2
  have ha' : a.1 < df.columns.length := by rw [← hlen]; exact h1
  have hb' : b.1 < df.columns.length := by rw [← hlen]; exact h2
  apply suffix_inj_aux df.columns h a.1 b.1 ha' hb' hne
  rw [List.getD_eq_getElem _ _ h1, List.getD_eq_getElem _ _ h2]
  rw [List.get_eq_getElem, List.get_eq_getElem] at hab
  exact hab

/-- C10 witness: distinctness on the spec's example columns, where no
pre-existing name clashes with a suffixed name. -/
theorem ensure_unique_nodup_of_no_clash_witness :
    (ensure_unique_columns { columns := ["vendor_id", "name", "vendor_id"], rows := [] }).columns.Nodup :=
  (ensure_unique_nodup_of_no_clash { columns := ["vendor_id", "name", "vendor_id"], rows := [] }
    (by decide)).1

/-! ### Forward fill -/

theorem lastNonEmptyFrom_nil (d : Cell) : lastNonEmptyFrom d [] = d := rfl

theorem lastNonEmptyFrom_cons (d c : Cell) (l : List Cell) :
    lastNonEmptyFrom d (c :: l) = lastNonEmptyFrom (if c.isSome then c else d) l := rfl

theorem lastNonEmpty_eq_from (l : List Cell) : lastNonEmpty l = lastNonEmptyFrom none l := rfl

theorem ffillStep_length (prev r : List Cell) :
    (ffillStep prev r).length = min prev.length r.length :=
  List.length_zipWith _ _ _

theorem ffillStep_getD (prev r : List Cell) (j : Nat) (hp : j < prev.length)
    (hr : j < r.length) :
    (ffillStep prev r).getD j none =
      (if (r.getD j none).isSome then r.getD j none else prev.getD j none) := by
  unfold ffillStep
  have hz : j < (List.zipWith (fun p c => if c.isSome then c else p) prev r).length := by
    rw [List.length_zipWith]
    exact lt_min hp hr
  rw [List.getD_eq_getElem _ _ hz, List.getElem_zipWith,
    List.getD_eq_getElem _ _ hr, List.getD_eq_getElem _ _ hp]

theorem ffillAux_length (rs : List (List Cell)) : ∀ prev, (ffillAux prev rs).length = rs.length := by
  induction rs with
  | nil => intro prev; rfl
  | cons r rs ih => intro prev; simp [ffillAux, ih]

theorem ffillAux_getD (w : Nat) : ∀ (rs : List (List Cell)) (prev : List Cell) (i j : Nat),
    prev.length = w → (∀ r ∈ rs, r.length = w) → i < rs.length → j < w →
    ((ffillAux prev rs).getD i []).getD j none =
      (if ((rs.getD i []).getD j none).isSome then (rs.getD i []).getD j none
       else lastNonEmptyFrom (prev.getD j none) ((rs.take i).map (fun r => r.getD j none))) := by
  intro rs
  induction rs with
  | nil => intro prev i j _ _ hi _; exact absurd hi (Nat.not_lt_zero i)
  | cons r rs ih =>
    intro prev i j hp hr hi hj
    have hrw : r.length = w := hr r (List.mem_cons_self r rs)
    cases i with
    | zero =>
      show ((ffillStep prev r :: ffillAux (ffillStep prev r) rs).getD 0 []).getD j none = _
      rw [List.getD_cons_zero, ffillStep_getD prev r j (by omega) (by omega),
        List.getD_cons_zero, List.take_zero, List.map_nil, lastNonEmptyFrom_nil]
    | succ i' =>
      show ((ffillAux (ffillStep prev r) rs).getD i' []).getD j none = _
      have hplen : (ffillStep prev r).length = w := by
        rw [ffillStep_length, hp, hrw, Nat.min_self]
      have hrs : ∀ r' ∈ rs, r'.length = w := fun r' h' => hr r' (List.mem_cons_of_mem _ h')
      have hi' : i' < rs.length := Nat.lt_of_succ_lt_succ hi
      rw [ih (ffillStep prev r) i' j hplen hrs hi' hj]
      rw [List.getD_cons_succ, List.take_succ_cons, List.map_cons, lastNonEmptyFrom_cons,
        ffillStep_getD prev r j (by omega) (by omega)]

theorem ffill_getD (w : Nat) (rows : List (List Cell)) (hw : ∀ r ∈ rows, r.length = w)
    (i j : Nat) (hi : i < rows.length) (hj : j < w) :
    ((ffill rows).getD i []).getD j none =
      (if ((rows.getD i []).getD j none).isSome then (rows.getD i []).getD j none
       else lastNonEmpty ((rows.take i).map (fun r => r.getD j none))) := by
  cases rows with
  | nil => exact absurd hi (Nat.not_lt_zero i)
  | cons r rs =>
    have hrw : r.length = w := hw r (List.mem_cons_self r rs)
    cases i with
    | zero =>
      show ((r :: ffillAux r rs).getD 0 []).getD j none = _
      rw [List.getD_cons_zero, List.getD_cons_zero, List.take_zero, List.map_nil]
      cases hc : r.getD j none with
      | none => simp [lastNonEmpty]
      | some v => simp
    | succ i' =>
      show ((ffillAux r rs).getD i' []).getD j none = _
      have hrs : ∀ r' ∈ rs, r'.length = w := fun r' h' => hw r' (List.mem_cons_of_mem _ h')
      have hi' : i' < rs.length := Nat.lt_of_succ_lt_succ hi
      rw [ffillAux_getD w rs r i' j hrw hrs hi' hj]
      rw [List.getD_cons_succ, List.take_succ_cons, List.map_cons]
      have hfix : (if (r.getD j none).isSome then r.getD j none else none) = r.getD j none := by
        cases r.getD j none <;> rfl
      rw [lastNonEmpty_eq_from, lastNonEmptyFrom_cons, hfix]

/-! ### Claim C6 -/

/-- C6: forward fill makes every cell equal to its own value when non-empty
and otherwise to the last non-empty cell above it in its column (so first
row empties stay empty, since there is nothing above), preserves the number
of rows, and the spec's example rows fill as stated — both through `ffill`
alone and through the whole `clean_csv`. -/
theorem forward_fill_spec :
    (∀ (w : Nat) (rows : List (List Cell)), (∀ r ∈ rows, r.length = w) →
      ∀ i j, i < rows.length → j < w →
        ((ffill rows).getD i []).getD j none =
          (if ((rows.getD i []).getD j none).isSome then (rows.getD i []).getD j none
           else lastNonEmpty ((rows.take i).map (fun r => r.getD j none)))) ∧
    (∀ rows : List (List Cell), (ffill rows).length = rows.length) ∧
    ffill exFfillRows = [[some "A", some "1"], [some "A", some "2"], [some "A", some "3"]] ∧
    clean_csv exFfillRows = [[some "A", some "1"], [some "A", some "2"], [some "A", some "3"]] := by
  refine ⟨fun w rows hw i j hi hj => ffill_getD w rows hw i j hi hj, ?_, by decide, by decide⟩
  intro rows
  cases rows with
  | nil => rfl
  | cons r rs =>
    show (r :: ffillAux r rs).length = _
    simp [ffillAux_length]

/-- C6 witness: the characterisation applied to the third row, first column
of the spec's example. -/
theorem forward_fill_spec_witness :
    ((ffill exFfillRows).getD 2 []).getD 0 none =
      (if ((exFfillRows.getD 2 []).getD 0 none).isSome then (exFfillRows.getD 2 []).getD 0 none
       else lastNonEmpty ((exFfillRows.take 2).map (fun r => r.getD 0 none))) :=
  forward_fill_spec.1 2 exFfillRows (by decide) 2 0 (by decide) (by decide)

/-! ### The sort order of the duplicates report -/

theorem charListLt_nil_right (as : List Char) : charListLt as [] = false := by
  cases as <;> rfl

theorem charListLt_nil_cons (b : Char) (bs : List Char) : charListLt [] (b :: bs) = true := rfl

theorem charListLt_cons_cons (a b : Char) (as bs : List Char) :
    charListLt (a :: as) (b :: bs) =
      (if a.toNat < b.toNat then true
       else if b.toNat < a.toNat then false
       else charListLt as bs) := rfl

theorem charListLt_asymm : ∀ as bs, charListLt as bs = true → charListLt bs as = false := by
  intro as
  induction as with
  | nil =>
    intro bs _
    exact charListLt_nil_right bs
  | cons a as' ih =>
    intro bs h
    cases bs with
    | nil => rw [charListLt_nil_right] at h; exact absurd h (by decide)
    | cons b bs' =>
      rw [charListLt_cons_cons] at h
      rw [charListLt_cons_cons]
      by_cases h1 : a.toNat < b.toNat
      · rw [if_neg (by omega), if_pos h1]
      · by_cases h2 : b.toNat < a.toNat
        · rw [if_neg h1, if_pos h2] at h
          exact absurd h (by decide)
        · rw [if_neg h1, if_neg h2] at h
          rw [if_neg h2, if_neg h1]
          exact ih bs' h

theorem charListLt_false_trans :
    ∀ as bs cs, charListLt as bs = false → charListLt bs cs = false →
      charListLt as cs = false := by
  intro as
  induction as with
  | nil =>
    intro bs cs h1 h2
    cases bs with
    | nil =>
      cases cs with
      | nil => exact charListLt_nil_right []
      | cons c cs' => rw [charListLt_nil_cons] at h2; exact absurd h2 (by decide)
    | cons b bs' => rw [charListLt_nil_cons] at h1; exact absurd h1 (by decide)
  | cons a as' ih =>
    intro bs cs h1 h2
    cases cs with
    | nil => exact charListLt_nil_right _
    | cons c cs' =>
      cases bs with
      | nil => rw [charListLt_nil_cons] at h2; exact absurd h2 (by decide)
      | cons b bs' =>
        rw [charListLt_cons_cons] at h1 h2 ⊢
        by_cases hab : a.toNat < b.toNat
        · rw [if_pos hab] at h1; exact absurd h1 (by decide)
        · by_cases hbc : b.toNat < c.toNat
          · rw [if_pos hbc] at h2; exact absurd h2 (by decide)
          · rw [if_neg (by omega)]
            by_cases hca : c.toNat < a.toNat
            · rw [if_pos hca]
            · rw [if_neg hca]
              rw [if_neg hab, if_neg (by omega : ¬b.toNat < a.toNat)] at h1
              rw [if_neg hbc, if_neg (by omega : ¬c.toNat < b.toNat)] at h2
              exact ih bs' cs' h1 h2

theorem cellLe_total (a b : Cell) : cellLe a b = true ∨ cellLe b a = true := by
  cases a with
  | none =>
    cases b with
    | none => exact Or.inl rfl
    | some y => exact Or.inr rfl
  | some x =>
    cases b with
    | none => exact Or.inl rfl
    | some y =>
      show (!(charListLt y.data x.data)) = true ∨ (!(charListLt x.data y.data)) = true
      cases hlt : charListLt y.data x.data with
      | false => exact Or.inl rfl
      | true => exact Or.inr (by rw [charListLt_asymm _ _ hlt]; rfl)

theorem cellLe_trans (a b c : Cell) (h1 : cellLe a b = true) (h2 : cellLe b c = true) :
    cellLe a c = true := by
  cases a with
  | none =>
    cases b with
    | none => exact h2
    | some y => exact Bool.noConfusion h1
  | some x =>
    cases c with
    | none => rfl
    | some z =>
      cases b with
      | none => exact Bool.noConfusion h2
      | some y =>
        show (!(charListLt z.data x.data)) = true
        have h1' : charListLt y.data x.data = false := by
          simpa only [cellLe, Bool.not_eq_true'] using h1
        have h2' : charListLt z.data y.data = false := by
          simpa only [cellLe, Bool.not_eq_true'] using h2
        rw [charListLt_false_trans z.data y.data x.data h2' h1']
        rfl

/-! ### Claim C4 -/

/-- C4: for every uncleaned consolidated dataset carrying the identifier
column, the duplicates report holds exactly the rows whose vendor_id occurs
on two or more rows (as a multiset: a permutation of the filtered row
list), sorted ascending by vendor_id; and on the spec's example
(identifiers V1, V2, V1, V3) the report is exactly the two V1 rows while
the cleaned, deduplicated output is the first V1 row, V2 and V3. -/
theorem duplicate_report_spec :
    (∀ df : DF, "vendor_id" ∈ df.columns →
      (duplicateReport df).columns = df.columns ∧
      (duplicateReport df).rows.Perm
        (df.rows.filter (fun r => 2 ≤ df.rows.countP (fun q => vkey df q == vkey df r))) ∧
      (duplicateReport df).rows.Pairwise (fun a b => cellLe (vkey df a) (vkey df b) = true)) ∧
    (duplicateReport exReportDF).rows = [[some "V1", some "a"], [some "V1", some "c"]] ∧
    (dedupByVendor (clean_columns exReportDF cleaning_rules)).rows =
      [[some "V1", some "a"], [some "V2", some "b"], [some "V3", some "d"]] := by
  refine ⟨?_, by decide, by decide⟩
  intro df h
  unfold duplicateReport
  rw [if_pos h]
  refine ⟨rfl, List.perm_insertionSort _ _, ?_⟩
  haveI : IsTotal (List Cell) (fun a b => cellLe (vkey df a) (vkey df b) = true) :=
    ⟨fun a b => cellLe_total _ _⟩
  haveI : IsTrans (List Cell) (fun a b => cellLe (vkey df a) (vkey df b) = true) :=
    ⟨fun a b c => cellLe_trans _ _ _⟩
  exact List.sorted_insertionSort _ _

/-- C4 witness: the report characterisation applied to the example
dataset. -/
theorem duplicate_report_spec_witness :
    (duplicateReport exReportDF).rows.Perm
      (exReportDF.rows.filter
        (fun r => 2 ≤ exReportDF.rows.countP (fun q => vkey exReportDF q == vkey exReportDF r))) :=
  (duplicate_report_spec.1 exReportDF (by decide)).2.1

/-! ### Consolidation -/

theorem unionColumns_foldl_mem : ∀ (dfs : List DF) (acc : List String) (c : String),
    (c ∈ dfs.foldl (fun acc df => acc ++ df.columns.filter (fun c => !acc.contains c)) acc ↔
      c ∈ acc ∨ ∃ df ∈ dfs, c ∈ df.columns) := by
  intro dfs
  induction dfs with
  | nil => intro acc c; simp
  | cons df dfs ih =>
    intro acc c
    rw [List.foldl_cons, ih]
    constructor
    · rintro (h | h)
      · rw [List.mem_append] at h
        rcases h with h | h
        · exact Or.inl h
        · rw [List.mem_filter] at h
          exact Or.inr ⟨df, List.mem_cons_self _ _, h.1⟩
      · obtain ⟨df', hdf', hc⟩ := h
        exact Or.inr ⟨df', List.mem_cons_of_mem _ hdf', hc⟩
    · rintro (h | ⟨df', hdf', hc⟩)
      · exact Or.inl (List.mem_append_left _ h)
      · rcases List.mem_cons.mp hdf' with heq | hmem
        · subst heq
          by_cases hacc : c ∈ acc
          · exact Or.inl (List.mem_append_left _ hacc)
          · refine Or.inl (List.mem_append_right _ ?_)
            rw [List.mem_filter]
            exact ⟨hc, by simpa using hacc⟩
        · exact Or.inr ⟨df', hmem, hc⟩

theorem unionColumns_foldl_nodup : ∀ (dfs : List DF) (acc : List String),
    (∀ df ∈ dfs, df.columns.Nodup) → acc.Nodup →
    (dfs.foldl (fun acc df => acc ++ df.columns.filter (fun c => !acc.contains c)) acc).Nodup := by
  intro dfs
  induction dfs with
  | nil => intro acc _ h; exact h
  | cons df dfs ih =>
    intro acc hnd hacc
    rw [List.foldl_cons]
    apply ih _ (fun d hd => hnd d (List.mem_cons_of_mem _ hd))
    rw [List.nodup_append]
    refine ⟨hacc, (hnd df (List.mem_cons_self _ _)).filter _, ?_⟩
    intro a ha hf
    rw [List.mem_filter] at hf
    have : a ∉ acc := by simpa using hf.2
    exact this ha

theorem flatten_map_getD {γ : Type} (dflt : γ) (g : DF → List γ) :
    ∀ (dfs : List DF) (s i : Nat), s < dfs.length → i < (g (dfs.getD s emptyDF)).length →
    ((dfs.map g).flatten).getD (((dfs.take s).map (fun df => (g df).length)).sum + i) dflt =
      (g (dfs.getD s emptyDF)).getD i dflt := by
  intro dfs
  induction dfs with
  | nil => intro s i hs _; exact absurd hs (Nat.not_lt_zero s)
  | cons df dfs ih =>
    intro s i hs hi
    cases s with
    | zero =>
      rw [List.take_zero, List.map_nil, List.sum_nil, Nat.zero_add, List.map_cons,
        List.flatten_cons]
      exact List.getD_append _ _ _ _ hi
    | succ s' =>
      rw [List.take_succ_cons]
      simp only [List.map_cons, List.sum_cons, List.flatten_cons]
      have hidx : (g df).length ≤ (g df).length + (((dfs.take s').map
          (fun df => (g df).length)).sum + i) := by omega
      rw [Nat.add_assoc, List.getD_append_right _ _ _ _ hidx]
      have harith : (g df).length + (((dfs.take s').map (fun df => (g df).length)).sum + i) -
          (g df).length = ((dfs.take s').map (fun df => (g df).length)).sum + i := by omega
      rw [harith]
      exact ih s' i (Nat.lt_of_succ_lt_succ hs) hi

theorem alignRow_getD (cols : List String) (df : DF) (row : List Cell) (c : String) :
    (alignRow cols df row).getD (cols.indexOf c) none =
      (if c ∈ cols then
        (if c ∈ df.columns then row.getD (df.columns.indexOf c) none else none)
       else none) := by
  unfold alignRow
  by_cases hc : c ∈ cols
  · rw [if_pos hc]
    have hlt : cols.indexOf c < cols.length := List.indexOf_lt_length.mpr hc
    have hlt' : cols.indexOf c < (cols.map (fun c =>
        if c ∈ df.columns then row.getD (df.columns.indexOf c) none else none)).length := by
      rw [List.length_map]; exact hlt
    rw [List.getD_eq_getElem _ _ hlt', List.getElem_map, List.getElem_indexOf hlt]
  · rw [if_neg hc]
    apply List.getD_eq_default
    rw [List.length_map]
    by_contra hlt
    push_neg at hlt
    exact hc (List.indexOf_lt_length.mp hlt)

theorem concatDFs_rows_length (dfs : List DF) :
    (concatDFs dfs).rows.length = (dfs.map (fun df => df.rows.length)).sum := by
  show ((dfs.map (fun df => df.rows.map (alignRow (unionColumns dfs) df))).flatten).length = _
  rw [List.length_flatten, List.map_map]
  congr 1
  apply List.map_congr_left
  intro df _
  exact List.length_map _ _

/-! ### Claim C7 -/

/-- C7: consolidation returns exactly the union of the input column sets
(pairwise distinct given distinct per-source columns), all input rows in
append order by source then row order within a source — the total row count
is the sum and the row at offset(s) + i is source s's row i — and reading
any column c of such a row gives the source's own cell when the source has
column c and NaN when it lacks it. -/
theorem consolidation_spec (dfs : List DF) (hnd : ∀ df ∈ dfs, df.columns.Nodup) :
    (∀ c, c ∈ (concatDFs dfs).columns ↔ ∃ df ∈ dfs, c ∈ df.columns) ∧
    (concatDFs dfs).columns.Nodup ∧
    (concatDFs dfs).rows.length = (dfs.map (fun df => df.rows.length)).sum ∧
    (∀ s i, s < dfs.length → i < (dfs.getD s emptyDF).rows.length →
      ∀ c, ((concatDFs dfs).rows.getD (rowOffset dfs s + i) []).getD
          ((concatDFs dfs).columns.indexOf c) none =
        (if c ∈ (dfs.getD s emptyDF).columns
         then ((dfs.getD s emptyDF).rows.getD i []).getD
            ((dfs.getD s emptyDF).columns.indexOf c) none
         else none)) := by
  refine ⟨?_, ?_, ?_, ?_⟩
  · intro c
    have h0 := unionColumns_foldl_mem dfs [] c
    refine ⟨fun hm => ?_, fun hm => h0.mpr (Or.inr hm)⟩
    rcases h0.mp hm with h' | h'
    · exact absurd h' (List.not_mem_nil c)
    · exact h' 
  · exact unionColumns_foldl_nodup dfs [] hnd List.nodup_nil
  · exact concatDFs_rows_length dfs
  · intro s i hs hi c
    have hoffset : rowOffset dfs s = ((dfs.take s).map
        (fun df => (df.rows.map (alignRow (unionColumns dfs) df)).length)).sum := by
      unfold rowOffset
      congr 1
      apply List.map_congr_left
      intro df _
      rw [List.length_map]
    show ((((dfs.map (fun df => df.rows.map (alignRow (unionColumns dfs) df))).flatten).getD
        (rowOffset dfs s + i) []).getD ((unionColumns dfs).indexOf c) none) = _
    rw [hoffset, flatten_map_getD [] (fun df => df.rows.map (alignRow (unionColumns dfs) df))
      dfs s i hs (by rw [List.length_map]; exact hi)]
    have hmap : (((dfs.getD s emptyDF).rows.map
          (alignRow (unionColumns dfs) (dfs.getD s emptyDF))).getD i []) =
        alignRow (unionColumns dfs) (dfs.getD s emptyDF) ((dfs.getD s emptyDF).rows.getD i []) := by
      rw [List.getD_eq_getElem _ _ (by rw [List.length_map]; exact hi), List.getElem_map,
        List.getD_eq_getElem _ _ hi]
    rw [hmap, alignRow_getD]
    by_cases hcu : c ∈ unionColumns dfs
    · rw [if_pos hcu]
    · rw [if_neg hcu]
      have hdfsmem : dfs.getD s emptyDF ∈ dfs := by
        rw [List.getD_eq_getElem _ _ hs]
        exact List.getElem_mem _
      have hnc : c ∉ (dfs.getD s emptyDF).columns := by
        intro hcd
        exact hcu ((unionColumns_foldl_mem dfs [] c).mpr
          (Or.inr ⟨dfs.getD s emptyDF, hdfsmem, hcd⟩))
      rw [if_neg hnc]

/-- C7 witness: the cell characterisation applied to the second source of
the two-source example, reading the column "city" that this source lacks. -/
theorem consolidation_spec_witness :
    ((concatDFs [exConsA, exConsB]).rows.getD (rowOffset [exConsA, exConsB] 1 + 0) []).getD
        ((concatDFs [exConsA, exConsB]).columns.indexOf "city") none =
      (if "city" ∈ ([exConsA, exConsB].getD 1 emptyDF).columns
       then (([exConsA, exConsB].getD 1 emptyDF).rows.getD 0 []).getD
          (([exConsA, exConsB].getD 1 emptyDF).columns.indexOf "city") none
       else none) :=
  (consolidation_spec [exConsA, exConsB] (by decide)).2.2.2 1 0 (by decide) (by decide) "city"

/-! ### Claim C9 -/

/-- C9 counterexample: the claim concludes that when no mapping entry of a
source targets "vendor_id" the identifier column is absent from that
source's standardized output.  A source whose raw columns already include
"vendor_id" (here `exNativeIdDF`, with an empty mapping table, so the
missing-mapping warning does fire) keeps that column. -/
theorem missing_vendor_counterexample :
    missingVendorIdMapping "S" ([] : MappingTable) = true ∧
      "vendor_id" ∈ (standardise_data exNativeIdDF "S" ([] : MappingTable)).columns := by
  decide

/-- C9 amended: when no mapping entry of a source targets "vendor_id",
standardisation raises no exception: it returns the renamed dataset with
all rows and the number of columns intact, the source's rows are still
included in the consolidated output, and — provided the source's own
columns do not already contain "vendor_id" — the identifier column is
absent from the standardized dataset. -/
theorem missing_vendor_spec (df : DF) (s : String) (mt : MappingTable)
    (h1 : missingVendorIdMapping s mt = true)
    (h2 : "vendor_id" ∉ df.columns) :
    (standardise_data df s mt).rows = df.rows ∧
    (standardise_data df s mt).columns.length = df.columns.length ∧
    "vendor_id" ∉ (standardise_data df s mt).columns ∧
    (∀ dd : List (String × DF), (s, df) ∈ dd →
      df.rows.length ≤ (consolidate_data dd mt).rows.length) := by
  refine ⟨rfl, List.length_map _ _, ?_, ?_⟩
  · intro hmem
    have hmem' : "vendor_id" ∈ df.columns.map (applyMap (mappingForSource mt s)) := hmem
    rw [List.mem_map] at hmem'
    obtain ⟨c, hc, happ⟩ := hmem'
    unfold applyMap fieldMapLookup at happ
    cases hfind : (mappingForSource mt s).reverse.find? (fun e => e.sourceField == c) with
    | none =>
      rw [hfind] at happ
      simp only [Option.map_none', Option.getD_none] at happ
      exact h2 (happ ▸ hc)
    | some e =>
      rw [hfind] at happ
      simp only [Option.map_some', Option.getD_some] at happ
      have hmem_e : e ∈ mappingForSource mt s := List.mem_reverse.mp (List.mem_of_find?_eq_some hfind)
      have hempty : (mappingForSource mt s).filter (fun e => e.standardField == "vendor_id") = [] := by
        have h1' := h1
        unfold missingVendorIdMapping at h1'
        exact List.isEmpty_iff.mp h1'
      exact (List.filter_eq_nil_iff.mp hempty e hmem_e) (by simp [happ])
  · intro dd hdd
    have hlen : (consolidate_data dd mt).rows.length = (dd.map (fun p => p.2.rows.length)).sum := by
      unfold consolidate_data
      rw [concatDFs_rows_length, List.map_map]
      congr 1
    rw [hlen]
    apply List.single_le_sum (fun x _ => Nat.zero_le x)
    exact List.mem_map.mpr ⟨(s, df), hdd, rfl⟩

/-- C9 witness: the amended theorem applied to a source mapped only to
vendor_name. -/
theorem missing_vendor_spec_witness :
    "vendor_id" ∉ (standardise_data exNoIdDF "S" exNoIdMT).columns :=
  (missing_vendor_spec exNoIdDF "S" exNoIdMT (by decide) (by decide)).2.2.1
